import Mathlib

/-!
Shallow embedding of the original logic of the Kinetiscope_Utils repository:
the per-species top-reaction selection (`build_top_reaction_dict.py`) and the
pathway ranking / nested classification-tree aggregation
(`gen_HiPRGen_rxn_dict_direct.py`).  Python dictionaries are modelled as
association lists with Python's update semantics (assignment to an existing
key keeps its position, a fresh key is appended); iteration over
`dict.values()` is modelled as iteration over the corresponding list.
-/

namespace Kinetiscope

/-- A Kinetiscope simulation reaction as consumed by
`build_top_reaction_dict.py`: ordered reactant and product species name
lists (duplicates allowed, stoichiometry) and a selection frequency. -/
structure Reaction where
  reactants : List String
  products : List String
  selection_freq : Nat
deriving DecidableEq, Repr

/-- A Python dict from species name to reaction, as an association list in
key-insertion order. -/
abbrev TopTable := List (String × Reaction)

/-- Python `top[k]` / `k in top`: first binding of `k`, if any. -/
def lookupT : TopTable → String → Option Reaction
  | [], _ => none
  | (k, r) :: rest, s => if k = s then some r else lookupT rest s

/-- Python `top[k] = r`: replace the binding in place if the key exists,
otherwise append the new binding at the end. -/
def insertT : TopTable → String → Reaction → TopTable
  | [], s, r => [(s, r)]
  | (k, r0) :: rest, s, r =>
    if k = s then (s, r) :: rest else (k, r0) :: insertT rest s r

/-- Direct translation of `should_update_reaction` from
`build_top_reaction_dict.py`: a new species is always stored; an existing
entry is replaced only on strictly greater `selection_freq`. -/
def should_update_reaction (top_formation_reaction : TopTable)
    (product : String) (reaction : Reaction) : Bool :=
  match lookupT top_formation_reaction product with
  | none => true
  | some current_reaction =>
      decide (current_reaction.selection_freq < reaction.selection_freq)

/-- The inner `for product in products` loop shared by
`build_top_reaction_dict` and `build_top_reaction_dict_for_reactants`. -/
def updateForSpecies (top : TopTable) (reaction : Reaction)
    (species : List String) : TopTable :=
  species.foldl
    (fun t s => if should_update_reaction t s reaction then insertT t s reaction else t)
    top

/-- Direct translation of `build_top_reaction_dict`: fold over the input
table's values in iteration order, updating the per-product table. -/
def build_top_reaction_dict (index_reaction_dict : List Reaction) : TopTable :=
  index_reaction_dict.foldl (fun t r => updateForSpecies t r r.products) []

/-- Direct translation of `build_top_reaction_dict_for_reactants`. -/
def build_top_reaction_dict_for_reactants (index_reaction_dict : List Reaction) : TopTable :=
  index_reaction_dict.foldl (fun t r => updateForSpecies t r r.reactants) []

/-- The per-species effect of processing one reaction, used to reason about
a single key of the table: if the species occurs in the reaction's role
list, the accumulator is updated exactly as `should_update_reaction`
dictates, otherwise it is untouched. -/
def topAcc (S : String) (species : List String) (acc : Option Reaction)
    (r : Reaction) : Option Reaction :=
  if S ∈ species then
    match acc with
    | none => some r
    | some c => if c.selection_freq < r.selection_freq then some r else some c
  else acc

/-- Keep only the first occurrence of each species name. -/
def firstOnly (l : List String) : List String :=
  l.foldl (fun acc s => if s ∈ acc then acc else acc ++ [s]) []

/-- A reaction with duplicate product occurrences removed. -/
def dedupProducts (r : Reaction) : Reaction :=
  { r with products := firstOnly r.products }

/-- A reaction with duplicate reactant occurrences removed. -/
def dedupReactants (r : Reaction) : Reaction :=
  { r with reactants := firstOnly r.reactants }

/-- Targets a Python dict mutation inside `build_top_reaction_dict` could
refer to: the caller-supplied input table or the fresh local table. -/
inductive MutTarget where
  | inputTable : MutTarget
  | localTable : MutTarget
deriving DecidableEq, Repr

/-- Instrumented translation of `build_top_reaction_dict` that also records
the target of every dict mutation the body performs.  The loop body of the
source contains a single assignment statement,
`top_formation_reactions[product] = reaction`, whose target is the local
table created by the function; no statement assigns into
`index_reaction_dict`. -/
def effStep (r : Reaction) (st2 : TopTable × List MutTarget) (s : String) :
    TopTable × List MutTarget :=
  if should_update_reaction st2.1 s r then
    (insertT st2.1 s r, st2.2 ++ [MutTarget.localTable])
  else st2

def build_top_reaction_dict_effects (index_reaction_dict : List Reaction) :
    TopTable × List MutTarget :=
  index_reaction_dict.foldl
    (fun st r => r.products.foldl (effStep r) st)
    ([], [])

/-- The effect, on the table entry of key `S`, of one iteration of the inner
species loop at species `s` with reaction `r`. -/
def optStep (S s : String) (acc : Option Reaction) (r : Reaction) : Option Reaction :=
  if s = S then
    match acc with
    | none => some r
    | some c => if c.selection_freq < r.selection_freq then some r else some c
  else acc

/-- Concrete fixture reaction used by witness theorems. -/
def rW1 : Reaction := { reactants := ["A", "A", "B"], products := ["X"], selection_freq := 5 }

/-- Concrete fixture reaction used by witness theorems. -/
def rW2 : Reaction := { reactants := ["X"], products := ["X"], selection_freq := 7 }

/-- Concrete fixture reaction used by witness theorems. -/
def rW3 : Reaction := { reactants := ["X", "X", "Y"], products := ["X", "Y"], selection_freq := 7 }

/-- Concrete fixture input table used by witness theorems. -/
def rsW : List Reaction := [rW1, rW2, rW3]

/-- A pathway record from a per-species `*_pathway.json` report:
`weight` and `frequency` are the sort keys used by `sort_pathways_list`,
`pathway` is the reaction-index chain that the module-level truncation
loop appends to `to_save_pathways`. -/
structure PathwayRecord where
  weight : Nat
  frequency : Nat
  pathway : List Nat
deriving DecidableEq, Repr

/-- The comparison induced by the Python sort key
`lambda x: (x['weight'], x['frequency'])`: lexicographic ascending order
on the pair (weight, frequency). -/
def pLE (a b : PathwayRecord) : Prop :=
  a.weight < b.weight ∨ (a.weight = b.weight ∧ a.frequency ≤ b.frequency)

instance pLE_decidable : DecidableRel pLE := fun a b => by
  unfold pLE
  exact inferInstance

instance pLE_total : IsTotal PathwayRecord pLE := by
  constructor
  intro a b
  unfold pLE
  rcases Nat.lt_trichotomy a.weight b.weight with h | h | h
  · exact Or.inl (Or.inl h)
  · rcases Nat.le_total a.frequency b.frequency with hf | hf
    · exact Or.inl (Or.inr ⟨h, hf⟩)
    · exact Or.inr (Or.inr ⟨h.symm, hf⟩)
  · exact Or.inr (Or.inl h)

instance pLE_trans : IsTrans PathwayRecord pLE := by
  constructor
  intro a b c hab hbc
  unfold pLE at hab hbc ⊢
  rcases hab with h1 | ⟨h1, h1f⟩ <;> rcases hbc with h2 | ⟨h2, h2f⟩
  · exact Or.inl (lt_trans h1 h2)
  · exact Or.inl (h2 ▸ h1)
  · exact Or.inl (h1 ▸ h2)
  · exact Or.inr ⟨h1.trans h2, le_trans h1f h2f⟩

/-- Translation of `sort_pathways_list`: Python's `sorted` is a stable
sort by the key above; insertion sort with a reflexive total transitive
relation is stable, so it computes the same list. -/
def sort_pathways_list (pathways_list : List PathwayRecord) : List PathwayRecord :=
  List.insertionSort pLE pathways_list

/-- The module-level truncation loop of `gen_HiPRGen_rxn_dict_direct.py`:
append each record's `pathway` and break as soon as ten are collected. -/
def truncGo : List PathwayRecord → List (List Nat) → List (List Nat)
  | [], acc => acc
  | p :: rest, acc =>
    let acc2 := acc ++ [p.pathway]
    if 10 ≤ acc2.length then acc2 else truncGo rest acc2

/-- The sorted-then-truncated pathway list the module saves for one
network product (`sorted_pathways_list` followed by the break-at-ten
loop building `to_save_pathways`). -/
def to_save_pathways (all_pathways_list : List PathwayRecord) : List (List Nat) :=
  truncGo (sort_pathways_list all_pathways_list) []

/-- Concrete fixture pathway records used by witness theorems. -/
def pW1 : PathwayRecord := { weight := 2, frequency := 5, pathway := [1] }

/-- Concrete fixture pathway records used by witness theorems. -/
def pW2 : PathwayRecord := { weight := 1, frequency := 9, pathway := [2] }

/-- Concrete fixture pathway records used by witness theorems. -/
def pW3 : PathwayRecord := { weight := 1, frequency := 3, pathway := [3] }

/-- A HiPRGen reaction object as used by the module-level code of
`gen_HiPRGen_rxn_dict_direct.py`: species lists, phase, the mutable broad
`tag`, and the classification path assigned at the end. -/
structure RxnSim where
  reactants : List String
  products : List String
  phase : Nat
  tag : String
  classification_list : List String
deriving DecidableEq, Repr

/-- One sweep of the module-level second-pass narrowing loop, from index
`i`: Python iterates the list while reassigning `reaction.tag` in place,
so each `narrow_down_ionization_type` call sees the list with all earlier
reassignments applied.  `narrow` stands for the external
`narrow_down_ionization_type` collaborator. -/
def spGo (narrow : RxnSim → List RxnSim → String) (l : List RxnSim) (i : Nat) :
    List RxnSim :=
  if h : i < l.length then
    spGo narrow
      (if l[i].tag = "attachment_or_recombination"
       then l.set i { l[i] with tag := narrow l[i] l } else l)
      (i + 1)
  else l
termination_by l.length - i
decreasing_by
  split
  · simp only [List.length_set]
    omega
  · omega

/-- The module-level second-pass narrowing loop over
`rxns_for_simulation`. -/
def second_pass (narrow : RxnSim → List RxnSim → String)
    (rxns_for_simulation : List RxnSim) : List RxnSim :=
  spGo narrow rxns_for_simulation 0

/-- Concrete fixture stand-in for `narrow_down_ionization_type`. -/
def narrowW : RxnSim → List RxnSim → String := fun _ _ => "electron_attachment"

/-- Concrete fixture simulation reaction used by witness theorems. -/
def rxnW1 : RxnSim :=
  { reactants := ["A"], products := ["B"], phase := 1,
    tag := "fragmentation", classification_list := [] }

/-- Concrete fixture simulation reaction used by witness theorems. -/
def rxnW2 : RxnSim :=
  { reactants := ["C"], products := ["D"], phase := 1,
    tag := "attachment_or_recombination", classification_list := [] }

/-- Concrete fixture simulation population used by witness theorems. -/
def rxnsW : List RxnSim := [rxnW1, rxnW2]

/-- A phase-2 reaction dictionary as stored under "reactions" in
`reaction_tally.json`. -/
structure RawRxn where
  reactants : List String
  products : List String
deriving DecidableEq, Repr

/-- The state threaded through the phase-2 processing: the reactions kept
for simulation and the names already added. -/
structure SimState where
  rxns_for_simulation : List RxnSim
  rxns_already_added : List String
deriving DecidableEq, Repr

/-- Contents of a `reaction_tally.json` file: `data.get("pathways", {})`
and `data.get("reactions", {})`. -/
structure TallyData where
  pathways : List (String × Nat)
  reactions : List (String × RawRxn)
deriving DecidableEq, Repr

/-- Outcome of `os.chdir(directory)` followed by
`loadfn("reaction_tally.json")` in that directory: success, a missing
directory or file, or some other raised exception with its message. -/
inductive LoadResult where
  | ok : TallyData → LoadResult
  | fileNotFound : LoadResult
  | raised : String → LoadResult
deriving DecidableEq, Repr

/-- The exceptions told apart by the two except clauses of
`add_high_frequency_P2_reactions`. -/
inductive PyErr where
  | fileNotFound : PyErr
  | other : String → PyErr
deriving DecidableEq, Repr

/-- Python `index_frequency_dict.get(rxn_index, 0)`. -/
def alistGetD : List (String × Nat) → String → Nat
  | [], _ => 0
  | (k2, v) :: rest, k => if k2 = k then v else alistGetD rest k

/-- The `for rxn_index, rxn_dict in index_rxn_dict.items()` loop of
`add_high_frequency_P2_reactions`.  `process` stands for the external
`process_P2_reaction` collaborator and may raise; a raise stops the loop,
leaving the state reached so far and the escaping exception message. -/
def processLoop (process : RawRxn → SimState → Except String SimState)
    (pathways : List (String × Nat)) (frequency_threshold : Nat) :
    List (String × RawRxn) → SimState → SimState × Option String
  | [], st => (st, none)
  | (rxn_index, rxn_dict) :: rest, st =>
    if frequency_threshold ≤ alistGetD pathways rxn_index then
      match process rxn_dict st with
      | Except.error e => (st, some e)
      | Except.ok st2 => processLoop process pathways frequency_threshold rest st2
    else processLoop process pathways frequency_threshold rest st

/-- The try block of `add_high_frequency_P2_reactions`: change directory,
load the tally, run the loop; the result is the state at exit of the block
together with the exception escaping it, if any. -/
def tryBody (env : String → LoadResult)
    (process : RawRxn → SimState → Except String SimState)
    (directory : String) (st : SimState) (frequency_threshold : Nat) :
    SimState × Option PyErr :=
  match env directory with
  | LoadResult.fileNotFound => (st, some PyErr.fileNotFound)
  | LoadResult.raised m => (st, some (PyErr.other m))
  | LoadResult.ok data =>
    match processLoop process data.pathways frequency_threshold data.reactions st with
    | (st2, none) => (st2, none)
    | (st2, some m) => (st2, some (PyErr.other m))

/-- The message printed by the except clause handling each exception. -/
def errMessage (directory : String) : PyErr → String
  | PyErr.fileNotFound =>
      "Error: The directory " ++ directory ++
        " or the file 'reaction_tally.json' does not exist."
  | PyErr.other m => "An unexpected error occurred: " ++ m

/-- Translation of `add_high_frequency_P2_reactions`: the try body wrapped
in the two except clauses, so every exception becomes a printed message
and a normal return. -/
def add_high_frequency_P2_reactions (env : String → LoadResult)
    (process : RawRxn → SimState → Except String SimState)
    (directory : String) (st : SimState) (frequency_threshold : Nat) :
    SimState × List String :=
  match tryBody env process directory st frequency_threshold with
  | (st2, none) => (st2, [])
  | (st2, some e) => (st2, [errMessage directory e])

/-- Concrete fixture environment in which every directory is missing. -/
def envW : String → LoadResult := fun _ => LoadResult.fileNotFound

/-- Concrete fixture stand-in for `process_P2_reaction`. -/
def processW : RawRxn → SimState → Except String SimState := fun _ st => Except.ok st

/-- Concrete fixture initial simulation state. -/
def stW : SimState := { rxns_for_simulation := [], rxns_already_added := [] }

/-- A value of the nested classification dictionary built by
`add_value_to_nested_dict`: an inner Python dict (keys in insertion
order) or a leaf list of inserted values. -/
inductive NTree (α : Type) where
  | node : List (String × NTree α) → NTree α
  | leaf : List α → NTree α

/-- A Python dict level of the nested classification dictionary. -/
abbrev Dict (α : Type) := List (String × NTree α)

/-- Python `d[k]` / `k in d` on one dict level. -/
def dGet {α : Type} : Dict α → String → Option (NTree α)
  | [], _ => none
  | (k2, t) :: rest, k => if k2 = k then some t else dGet rest k

/-- Python `d[k] = t` on one dict level: replace in place or append. -/
def dSet {α : Type} : Dict α → String → NTree α → Dict α
  | [], k, t => [(k, t)]
  | (k2, t2) :: rest, k, t =>
    if k2 = k then (k, t) :: rest else (k2, t2) :: dSet rest k t

/-- Direct translation of `add_value_to_nested_dict`.  Python mutates the
dict and can raise: an empty key list raises IndexError at `keys[-1]`; a
walk that meets a list where a dict is expected raises TypeError, and a
terminal key holding a dict raises AttributeError at `.append`; in all
those cases nothing has been inserted, which the `none` result models.
On success the updated dict is returned. -/
def add_value_to_nested_dict {α : Type} (value : α) :
    List String → Dict α → Option (Dict α)
  | [], _ => none
  | [k], nested_dict =>
    match dGet nested_dict k with
    | none => some (dSet nested_dict k (NTree.leaf [value]))
    | some (NTree.leaf vs) => some (dSet nested_dict k (NTree.leaf (vs ++ [value])))
    | some (NTree.node _) => none
  | k :: k2 :: ks, nested_dict =>
    match dGet nested_dict k with
    | none =>
      match add_value_to_nested_dict value (k2 :: ks) [] with
      | none => none
      | some sub => some (dSet nested_dict k (NTree.node sub))
    | some (NTree.node sub) =>
      match add_value_to_nested_dict value (k2 :: ks) sub with
      | none => none
      | some sub2 => some (dSet nested_dict k (NTree.node sub2))
    | some (NTree.leaf _) => none

/-- The entry stored at a (nonempty) key path, walking only through
nodes. -/
def storedAt {α : Type} : Dict α → List String → Option (NTree α)
  | _, [] => none
  | d, [k] => dGet d k
  | d, k :: k2 :: ks =>
    match dGet d k with
    | some (NTree.node sub) => storedAt sub (k2 :: ks)
    | _ => none

/-- The leaf list stored at a key path, if that path ends at a leaf. -/
def findLeafPath {α : Type} (d : Dict α) (keys : List String) : Option (List α) :=
  match storedAt d keys with
  | some (NTree.leaf vs) => some vs
  | _ => none

mutual

/-- Total number of values held in the leaf lists of a subtree. -/
def leafCount {α : Type} : NTree α → Nat
  | NTree.leaf vs => vs.length
  | NTree.node d => dictCount d

/-- Total number of values held in the leaf lists under a dict level. -/
def dictCount {α : Type} : Dict α → Nat
  | [] => 0
  | (_, t) :: rest => leafCount t + dictCount rest

end

/-- One key path extends another (possibly equal). -/
def isPre (a b : List String) : Prop := ∃ t, a ++ t = b

/-- One key path strictly extends another. -/
def strictPre (a b : List String) : Prop := ∃ t, t ≠ [] ∧ a ++ t = b

/-- A leaf list is stored at this path. -/
def isLeafAt {α : Type} (d : Dict α) (q : List String) : Prop :=
  ∃ vs, storedAt d q = some (NTree.leaf vs)

/-- An inner dict is stored at this path. -/
def isNodeAt {α : Type} (d : Dict α) (q : List String) : Prop :=
  ∃ sub, storedAt d q = some (NTree.node sub)

/-- Direct translation of `add_reaction_to_dictionary`: insert the
reaction at its own `classification_list` path. -/
def add_reaction_to_dictionary (reaction : RxnSim) (reaction_dict : Dict RxnSim) :
    Option (Dict RxnSim) :=
  add_value_to_nested_dict reaction reaction.classification_list reaction_dict

/-- A sequence of `add_value_to_nested_dict` calls, as performed by the
module loop; the first raised error aborts the sequence. -/
def insertAll {α : Type} : List (α × List String) → Dict α → Option (Dict α)
  | [], d => some d
  | (v, p) :: rest, d =>
    match add_value_to_nested_dict v p d with
    | none => none
    | some d2 => insertAll rest d2

/-- The module loop `for reaction in rxns_for_simulation:
add_reaction_to_dictionary(reaction, tagged_rxn_dict)`. -/
def insert_reactions : List RxnSim → Dict RxnSim → Option (Dict RxnSim)
  | [], d => some d
  | r :: rest, d =>
    match add_reaction_to_dictionary r d with
    | none => none
    | some d2 => insert_reactions rest d2

/-- Concrete fixture classified reaction used by witness theorems. -/
def crW1 : RxnSim :=
  { reactants := ["A"], products := ["B"], phase := 1, tag := "fragmentation",
    classification_list := ["chemical", "unimolecular", "fragmentation"] }

/-- Concrete fixture classified reaction used by witness theorems. -/
def crW2 : RxnSim :=
  { reactants := ["C"], products := ["D"], phase := 1, tag := "positive_ionization",
    classification_list := ["ionization", "positive_ionization"] }

/-- Concrete fixture reaction whose classification path is empty, used by
counterexample theorems. -/
def crW0 : RxnSim :=
  { reactants := ["E"], products := ["F"], phase := 1, tag := "chemical",
    classification_list := [] }

theorem lookupT_insertT_self (t : TopTable) (s : String) (r : Reaction) :
    lookupT (insertT t s r) s = some r := by
  induction t with
  | nil => simp [insertT, lookupT]
  | cons p rest ih =>
    obtain ⟨k, r0⟩ := p
    by_cases h : k = s <;> simp [insertT, lookupT, h, ih]

theorem lookupT_insertT_ne (t : TopTable) (s s' : String) (r : Reaction)
    (h : s ≠ s') : lookupT (insertT t s r) s' = lookupT t s' := by
  induction t with
  | nil => simp [insertT, lookupT, h]
  | cons p rest ih =>
    obtain ⟨k, r0⟩ := p
    by_cases hk : k = s
    · subst hk
      simp [insertT, lookupT, h, ih]
    · simp [insertT, lookupT, hk, ih]

theorem lookupT_updateStep (t : TopTable) (r : Reaction) (s S : String) :
    lookupT (if should_update_reaction t s r then insertT t s r else t) S
      = optStep S s (lookupT t S) r := by
  by_cases hs : s = S
  · subst hs
    cases hl : lookupT t s with
    | none =>
      have hcond : should_update_reaction t s r = true := by
        unfold should_update_reaction; rw [hl]
      simp [hcond, optStep, lookupT_insertT_self, hl]
    | some c =>
      by_cases hf : c.selection_freq < r.selection_freq
      · have hcond : should_update_reaction t s r = true := by
          unfold should_update_reaction; rw [hl]; simpa using hf
        simp [hcond, optStep, lookupT_insertT_self, hf]
      · have hcond : should_update_reaction t s r = false := by
          unfold should_update_reaction; rw [hl]; simpa using hf
        simp [hcond, optStep, hl, hf]
  · have hne : lookupT (if should_update_reaction t s r then insertT t s r else t) S
        = lookupT t S := by
      split
      · exact lookupT_insertT_ne t s S r hs
      · rfl
    rw [hne]
    simp [optStep, hs]

theorem lookupT_updateForSpecies_fold (r : Reaction) (S : String) :
    ∀ (l : List String) (t : TopTable),
      lookupT (updateForSpecies t r l) S
        = l.foldl (fun a s => optStep S s a r) (lookupT t S) := by
  intro l
  induction l with
  | nil => intro t; rfl
  | cons s rest ih =>
    intro t
    show lookupT (updateForSpecies (if should_update_reaction t s r then insertT t s r else t) r rest) S = _
    rw [ih, lookupT_updateStep]
    rfl

theorem optStep_fold_eq_topAcc (r : Reaction) (S : String) :
    ∀ (l : List String) (acc : Option Reaction),
      l.foldl (fun a s => optStep S s a r) acc = topAcc S l acc r := by
  intro l
  induction l with
  | nil => intro acc; simp [topAcc]
  | cons s rest ih =>
    intro acc
    show List.foldl (fun a s => optStep S s a r) (optStep S s acc r) rest = _
    rw [ih]
    by_cases hs : s = S
    · have hstep : optStep S s acc r =
          match acc with
          | none => some r
          | some c => if c.selection_freq < r.selection_freq then some r else some c := by
        unfold optStep; rw [if_pos hs]
      rw [hstep]
      unfold topAcc
      have hmem : S ∈ s :: rest := by simp [hs]
      rw [if_pos hmem]
      by_cases hm : S ∈ rest
      · rw [if_pos hm]
        cases acc with
        | none => simp [Nat.lt_irrefl]
        | some c =>
          by_cases hf : c.selection_freq < r.selection_freq <;>
            simp [hf, Nat.lt_irrefl]
      · rw [if_neg hm]
    · have hstep : optStep S s acc r = acc := by
        unfold optStep; rw [if_neg hs]
      rw [hstep]
      unfold topAcc
      have hmem : (S ∈ s :: rest) ↔ (S ∈ rest) := by
        constructor
        · intro h
          rcases List.mem_cons.mp h with h1 | h2
          · exact absurd h1.symm hs
          · exact h2
        · intro h
          exact List.mem_cons_of_mem s h
      by_cases hm : S ∈ rest
      · rw [if_pos hm, if_pos (hmem.mpr hm)]
      · rw [if_neg hm, if_neg (fun hcon => hm (hmem.mp hcon))]

theorem lookupT_updateForSpecies (t : TopTable) (r : Reaction)
    (l : List String) (S : String) :
    lookupT (updateForSpecies t r l) S = topAcc S l (lookupT t S) r := by
  rw [lookupT_updateForSpecies_fold, optStep_fold_eq_topAcc]

theorem lookupT_buildFold (f : Reaction → List String) (S : String) :
    ∀ (rs : List Reaction) (t : TopTable),
      lookupT (rs.foldl (fun t r => updateForSpecies t r (f r)) t) S
        = rs.foldl (fun acc r => topAcc S (f r) acc r) (lookupT t S) := by
  intro rs
  induction rs with
  | nil => intro t; rfl
  | cons r rest ih =>
    intro t
    show lookupT (rest.foldl _ (updateForSpecies t r (f r))) S = _
    rw [ih, lookupT_updateForSpecies]
    rfl

theorem topFold_none_spec (f : Reaction → List String) (S : String) :
    ∀ (rs : List Reaction),
      rs.foldl (fun acc r => topAcc S (f r) acc r) none = none →
      ∀ r ∈ rs, S ∉ f r := by
  intro rs
  induction rs using List.reverseRecOn with
  | nil => intro _ r hr; cases hr
  | append_singleton xs x ih =>
    intro h r hr
    rw [List.foldl_append] at h
    simp only [List.foldl_cons, List.foldl_nil] at h
    cases hacc : xs.foldl (fun acc r => topAcc S (f r) acc r) none with
    | none =>
      rw [hacc] at h
      rcases List.mem_append.mp hr with hx | hx
      · exact ih hacc r hx
      · have hrx : r = x := by simpa using hx
        subst hrx
        intro hmem
        simp [topAcc, hmem] at h
    | some c =>
      rw [hacc] at h
      by_cases hmem : S ∈ f x
      · by_cases hcf : c.selection_freq < x.selection_freq <;>
          simp [topAcc, hmem, hcf] at h
      · simp [topAcc, hmem] at h

theorem topFold_some_spec (f : Reaction → List String) (S : String) :
    ∀ (rs : List Reaction) (R : Reaction),
      rs.foldl (fun acc r => topAcc S (f r) acc r) none = some R →
      S ∈ f R ∧
      ∃ l1 l2, rs = l1 ++ R :: l2 ∧
        (∀ r ∈ l1, S ∈ f r → r.selection_freq < R.selection_freq) ∧
        (∀ r ∈ l2, S ∈ f r → r.selection_freq ≤ R.selection_freq) := by
  intro rs
  induction rs using List.reverseRecOn with
  | nil => intro R h; cases h
  | append_singleton xs x ih =>
    intro R h
    rw [List.foldl_append] at h
    simp only [List.foldl_cons, List.foldl_nil] at h
    cases hacc : xs.foldl (fun acc r => topAcc S (f r) acc r) none with
    | none =>
      rw [hacc] at h
      by_cases hmem : S ∈ f x
      · simp only [topAcc, if_pos hmem] at h
        have hRx : x = R := by simpa using h
        subst hRx
        refine ⟨hmem, xs, [], by simp, ?_, by simp⟩
        intro r hr hrS
        exact absurd hrS (topFold_none_spec f S xs hacc r hr)
      · simp [topAcc, hmem] at h
    | some c =>
      rw [hacc] at h
      obtain ⟨hcS, l1, l2, hsplit, hl1, hl2⟩ := ih c hacc
      by_cases hmem : S ∈ f x
      · by_cases hcf : c.selection_freq < x.selection_freq
        · have hRx : x = R := by simpa [topAcc, hmem, hcf] using h
          subst hRx
          refine ⟨hmem, xs, [], by simp, ?_, by simp⟩
          intro r hr hrS
          rw [hsplit] at hr
          rcases List.mem_append.mp hr with hx | hx
          · exact lt_trans (hl1 r hx hrS) hcf
          · rcases List.mem_cons.mp hx with hx1 | hx2
            · subst hx1; exact hcf
            · exact lt_of_le_of_lt (hl2 r hx2 hrS) hcf
        · have hRc : c = R := by simpa [topAcc, hmem, hcf] using h
          subst hRc
          refine ⟨hcS, l1, l2 ++ [x], by rw [hsplit]; simp, hl1, ?_⟩
          intro r hr hrS
          rcases List.mem_append.mp hr with hx | hx
          · exact hl2 r hx hrS
          · have hrx : r = x := by simpa using hx
            subst hrx
            exact le_of_not_lt hcf
      · have hRc : c = R := by simpa [topAcc, hmem] using h
        subst hRc
        refine ⟨hcS, l1, l2 ++ [x], by rw [hsplit]; simp, hl1, ?_⟩
        intro r hr hrS
        rcases List.mem_append.mp hr with hx | hx
        · exact hl2 r hx hrS
        · have hrx : r = x := by simpa using hx
          subst hrx
          exact absurd hrS hmem

theorem lookupT_build_products (rs : List Reaction) (S : String) :
    lookupT (build_top_reaction_dict rs) S
      = rs.foldl (fun acc r => topAcc S r.products acc r) none :=
  lookupT_buildFold (fun r => r.products) S rs []

theorem lookupT_build_reactants (rs : List Reaction) (S : String) :
    lookupT (build_top_reaction_dict_for_reactants rs) S
      = rs.foldl (fun acc r => topAcc S r.reactants acc r) none :=
  lookupT_buildFold (fun r => r.reactants) S rs []

theorem mem_firstOnly_aux (x : String) :
    ∀ (l acc : List String),
      (x ∈ l.foldl (fun acc s => if s ∈ acc then acc else acc ++ [s]) acc)
        ↔ (x ∈ acc ∨ x ∈ l) := by
  intro l
  induction l with
  | nil => intro acc; simp
  | cons s rest ih =>
    intro acc
    show (x ∈ rest.foldl _ (if s ∈ acc then acc else acc ++ [s])) ↔ _
    rw [ih]
    by_cases hm : s ∈ acc
    · rw [if_pos hm]
      constructor
      · rintro (h1 | h2)
        · exact Or.inl h1
        · exact Or.inr (List.mem_cons_of_mem s h2)
      · rintro (h1 | h2)
        · exact Or.inl h1
        · rcases List.mem_cons.mp h2 with h3 | h4
          · subst h3; exact Or.inl hm
          · exact Or.inr h4
    · rw [if_neg hm]
      simp only [List.mem_append, List.mem_singleton, List.mem_cons]
      tauto

theorem mem_firstOnly (x : String) (l : List String) :
    x ∈ firstOnly l ↔ x ∈ l := by
  unfold firstOnly
  rw [mem_firstOnly_aux]
  simp

theorem topFold_map_comm (g : Reaction → Reaction) (f : Reaction → List String)
    (S : String)
    (hfreq : ∀ r, (g r).selection_freq = r.selection_freq)
    (hmem : ∀ r, (S ∈ f (g r)) ↔ (S ∈ f r)) :
    ∀ (rs : List Reaction) (acc : Option Reaction),
      rs.foldl (fun a r => topAcc S (f (g r)) a (g r)) (Option.map g acc)
        = Option.map g (rs.foldl (fun a r => topAcc S (f r) a r) acc) := by
  intro rs
  induction rs with
  | nil => intro acc; rfl
  | cons r rest ih =>
    intro acc
    show List.foldl _ (topAcc S (f (g r)) (Option.map g acc) (g r)) rest = _
    have hstep : topAcc S (f (g r)) (Option.map g acc) (g r)
        = Option.map g (topAcc S (f r) acc r) := by
      unfold topAcc
      by_cases hm : S ∈ f r
      · rw [if_pos ((hmem r).mpr hm), if_pos hm]
        cases acc with
        | none => rfl
        | some c =>
          show (if (g c).selection_freq < (g r).selection_freq
                then some (g r) else some (g c)) = _
          rw [hfreq c, hfreq r]
          by_cases hf : c.selection_freq < r.selection_freq
          · rw [if_pos hf]
            simp [hf]
          · rw [if_neg hf]
            simp [hf]
      · rw [if_neg (fun hc => hm ((hmem r).mp hc)), if_neg hm]
    rw [hstep, ih]
    rfl

theorem effects_inner_ex (r : Reaction) :
    ∀ (l : List String) (t : TopTable) (ms : List MutTarget),
      ∃ k, l.foldl (effStep r) (t, ms)
        = (updateForSpecies t r l, ms ++ List.replicate k MutTarget.localTable) := by
  intro l
  induction l with
  | nil => intro t ms; exact ⟨0, by simp [updateForSpecies]⟩
  | cons s rest ih =>
    intro t ms
    by_cases hc : should_update_reaction t s r
    · have hstep : effStep r (t, ms) s = (insertT t s r, ms ++ [MutTarget.localTable]) := by
        unfold effStep
        rw [if_pos hc]
      obtain ⟨k, hk⟩ := ih (insertT t s r) (ms ++ [MutTarget.localTable])
      refine ⟨k + 1, ?_⟩
      rw [List.foldl_cons, hstep, hk]
      have h1 : updateForSpecies t r (s :: rest) = updateForSpecies (insertT t s r) r rest := by
        unfold updateForSpecies
        rw [List.foldl_cons, if_pos hc]
      rw [h1]
      have h2 : (ms ++ [MutTarget.localTable]) ++ List.replicate k MutTarget.localTable
          = ms ++ List.replicate (k + 1) MutTarget.localTable := by
        rw [List.append_assoc]
        simp [List.replicate_succ]
      rw [h2]
    · have hstep : effStep r (t, ms) s = (t, ms) := by
        unfold effStep
        rw [if_neg hc]
      obtain ⟨k, hk⟩ := ih t ms
      refine ⟨k, ?_⟩
      rw [List.foldl_cons, hstep, hk]
      have h1 : updateForSpecies t r (s :: rest) = updateForSpecies t r rest := by
        unfold updateForSpecies
        rw [List.foldl_cons, if_neg hc]
      rw [h1]

theorem effects_outer_ex :
    ∀ (rs : List Reaction) (t : TopTable) (ms : List MutTarget),
      ∃ k, rs.foldl (fun st r => r.products.foldl (effStep r) st) (t, ms)
        = (rs.foldl (fun t r => updateForSpecies t r r.products) t,
           ms ++ List.replicate k MutTarget.localTable) := by
  intro rs
  induction rs with
  | nil => intro t ms; exact ⟨0, by simp⟩
  | cons r rest ih =>
    intro t ms
    obtain ⟨k1, hk1⟩ := effects_inner_ex r r.products t ms
    obtain ⟨k2, hk2⟩ :=
      ih (updateForSpecies t r r.products) (ms ++ List.replicate k1 MutTarget.localTable)
    refine ⟨k1 + k2, ?_⟩
    rw [List.foldl_cons, hk1, hk2, List.foldl_cons]
    congr 1
    rw [List.append_assoc, ← List.replicate_add]

/-- C1: for every species present as a key in the table built by
`build_top_reaction_dict`, the stored reaction lists the species among its
products, its `selection_freq` is greater than or equal to that of every
input reaction producing the species, and it is the earliest reaction in
the input's iteration order among those attaining the maximum (every
earlier producer is strictly smaller, since replacement needs strict
greater). -/
theorem build_top_reaction_dict_selects_first_max
    (rs : List Reaction) (S : String) (R : Reaction)
    (h : lookupT (build_top_reaction_dict rs) S = some R) :
    S ∈ R.products ∧
    (∀ r ∈ rs, S ∈ r.products → r.selection_freq ≤ R.selection_freq) ∧
    ∃ l1 l2, rs = l1 ++ R :: l2 ∧
      ∀ r ∈ l1, S ∈ r.products → r.selection_freq < R.selection_freq := by
  rw [lookupT_build_products] at h
  obtain ⟨hmem, l1, l2, hsplit, hl1, hl2⟩ :=
    topFold_some_spec (fun r => r.products) S rs R h
  refine ⟨hmem, ?_, l1, l2, hsplit, hl1⟩
  intro r hr hrS
  rw [hsplit] at hr
  rcases List.mem_append.mp hr with hx | hx
  · exact le_of_lt (hl1 r hx hrS)
  · rcases List.mem_cons.mp hx with hx1 | hx2
    · subst hx1; exact le_refl _
    · exact hl2 r hx2 hrS

/-- Witness for C1 at the concrete fixture: rW2 wins the tie with rW3 for
species "X" because it is encountered earlier. -/
theorem build_top_reaction_dict_selects_first_max_witness :
    lookupT (build_top_reaction_dict rsW) "X" = some rW2 ∧
    ("X" ∈ rW2.products ∧
      (∀ r ∈ rsW, "X" ∈ r.products → r.selection_freq ≤ rW2.selection_freq) ∧
      ∃ l1 l2, rsW = l1 ++ rW2 :: l2 ∧
        ∀ r ∈ l1, "X" ∈ r.products → r.selection_freq < rW2.selection_freq) :=
  ⟨by decide, build_top_reaction_dict_selects_first_max rsW "X" rW2 (by decide)⟩

/-- C5: duplicate occurrences of a species inside one reaction's role list
are no-ops: an update attempt of a reaction against itself never fires, and
both `build_top_reaction_dict` and `build_top_reaction_dict_for_reactants`
give, key for key, the table obtained from inputs whose role lists keep
only the first occurrence of each species. -/
theorem duplicate_species_occurrences_are_noops (rs : List Reaction) (S : String) :
    (∀ (t : TopTable) (s : String) (r : Reaction),
        should_update_reaction (insertT t s r) s r = false) ∧
    lookupT (build_top_reaction_dict (rs.map dedupProducts)) S
      = Option.map dedupProducts (lookupT (build_top_reaction_dict rs) S) ∧
    lookupT (build_top_reaction_dict_for_reactants (rs.map dedupReactants)) S
      = Option.map dedupReactants (lookupT (build_top_reaction_dict_for_reactants rs) S) := by
  refine ⟨?_, ?_, ?_⟩
  · intro t s r
    unfold should_update_reaction
    rw [lookupT_insertT_self]
    simp [Nat.lt_irrefl]
  · rw [lookupT_build_products, lookupT_build_products, List.foldl_map]
    exact
      topFold_map_comm dedupProducts (fun r => r.products) S (fun r => rfl)
        (fun r => mem_firstOnly S r.products) rs none
  · rw [lookupT_build_reactants, lookupT_build_reactants, List.foldl_map]
    exact
      topFold_map_comm dedupReactants (fun r => r.reactants) S (fun r => rfl)
        (fun r => mem_firstOnly S r.reactants) rs none

/-- Witness for C5 at the concrete fixture: rW1 has reactants
["A", "A", "B"]; the second attempt on "A" compares rW1 against itself and
does not fire, and the built tables agree with the deduplicated inputs. -/
theorem duplicate_species_occurrences_are_noops_witness :
    should_update_reaction (insertT [] "A" rW1) "A" rW1 = false ∧
    lookupT (build_top_reaction_dict_for_reactants (rsW.map dedupReactants)) "A"
      = Option.map dedupReactants (lookupT (build_top_reaction_dict_for_reactants rsW) "A") :=
  ⟨(duplicate_species_occurrences_are_noops rsW "A").1 [] "A" rW1,
   (duplicate_species_occurrences_are_noops rsW "A").2.2⟩

/-- C9: `build_top_reaction_dict` is pure: it is a function of its input
(calling it twice on the same table gives equal results), and the
instrumented translation records that every dict mutation performed by its
body targets the fresh local table, never the input table, so the input is
left unmodified. -/
theorem build_top_reaction_dict_is_pure (rs : List Reaction) :
    (build_top_reaction_dict_effects rs).1 = build_top_reaction_dict rs ∧
    MutTarget.inputTable ∉ (build_top_reaction_dict_effects rs).2 ∧
    build_top_reaction_dict rs = build_top_reaction_dict rs := by
  obtain ⟨k, hk⟩ := effects_outer_ex rs [] []
  have heq : build_top_reaction_dict_effects rs
      = (build_top_reaction_dict rs, List.replicate k MutTarget.localTable) := by
    unfold build_top_reaction_dict_effects build_top_reaction_dict
    rw [hk]
    rfl
  refine ⟨by rw [heq], ?_, rfl⟩
  rw [heq]
  intro hmem
  have := List.eq_of_mem_replicate hmem
  cases this

/-- Witness for C9 at the concrete fixture. -/
theorem build_top_reaction_dict_is_pure_witness :
    (build_top_reaction_dict_effects rsW).1 = build_top_reaction_dict rsW ∧
    MutTarget.inputTable ∉ (build_top_reaction_dict_effects rsW).2 :=
  ⟨(build_top_reaction_dict_is_pure rsW).1, (build_top_reaction_dict_is_pure rsW).2.1⟩

theorem truncGo_spec :
    ∀ (l : List PathwayRecord) (acc : List (List Nat)), acc.length < 10 →
      truncGo l acc = acc ++ (l.take (10 - acc.length)).map (fun p => p.pathway) := by
  intro l
  induction l with
  | nil => intro acc _; simp [truncGo]
  | cons p rest ih =>
    intro acc hacc
    show (if 10 ≤ (acc ++ [p.pathway]).length then acc ++ [p.pathway]
          else truncGo rest (acc ++ [p.pathway])) = _
    have hlen : (acc ++ [p.pathway]).length = acc.length + 1 := by simp
    by_cases h10 : 10 ≤ acc.length + 1
    · rw [if_pos (by rw [hlen]; exact h10)]
      have htake : 10 - acc.length = 1 := by omega
      rw [htake]
      simp
    · rw [if_neg (by rw [hlen]; omega)]
      have hlt : (acc ++ [p.pathway]).length < 10 := by rw [hlen]; omega
      rw [ih (acc ++ [p.pathway]) hlt]
      obtain ⟨m, hm⟩ : ∃ m, 10 - acc.length = m + 1 := ⟨10 - acc.length - 1, by omega⟩
      have hn : 10 - (acc ++ [p.pathway]).length = m := by rw [hlen]; omega
      rw [hn, hm]
      simp [List.take_succ_cons, List.append_assoc]

/-- C2: `sort_pathways_list` sorts ascending by the (weight, frequency)
tuple, so lower frequency comes first among equal weights: on the example
input it returns the records in order [{1,3},{1,9},{2,5}], and in general
its output is a pLE-sorted permutation of its input. -/
theorem sort_pathways_list_ascending_tuple :
    sort_pathways_list [pW1, pW2, pW3] = [pW3, pW2, pW1] ∧
    ∀ l : List PathwayRecord,
      List.Sorted pLE (sort_pathways_list l) ∧ List.Perm (sort_pathways_list l) l := by
  constructor
  · decide
  · intro l
    exact ⟨List.sorted_insertionSort pLE l, List.perm_insertionSort pLE l⟩

/-- Witness for C2: the general part instantiated at the example input. -/
theorem sort_pathways_list_ascending_tuple_witness :
    List.Sorted pLE (sort_pathways_list [pW1, pW2, pW3]) :=
  ((sort_pathways_list_ascending_tuple).2 [pW1, pW2, pW3]).1

/-- C8: the truncation loop keeps exactly the first min(10, length)
records of the sorted sequence, in sorted order, collecting their
`pathway` fields. -/
theorem to_save_pathways_first_ten (l : List PathwayRecord) :
    to_save_pathways l
      = ((sort_pathways_list l).take (min 10 (sort_pathways_list l).length)).map
          (fun p => p.pathway) ∧
    (to_save_pathways l).length = min 10 (sort_pathways_list l).length := by
  have htake : (sort_pathways_list l).take (min 10 (sort_pathways_list l).length)
      = (sort_pathways_list l).take 10 := by
    rcases Nat.le_total (sort_pathways_list l).length 10 with h | h
    · rw [min_comm, Nat.min_eq_left h, List.take_length,
        List.take_of_length_le h]
    · rw [Nat.min_eq_left h]
  have hmain : to_save_pathways l
      = ((sort_pathways_list l).take 10).map (fun p => p.pathway) := by
    unfold to_save_pathways
    rw [truncGo_spec (sort_pathways_list l) [] (by simp)]
    simp
  refine ⟨by rw [htake, hmain], ?_⟩
  rw [hmain]
  simp [List.length_take]

/-- Witness for C8 at a concrete input. -/
theorem to_save_pathways_first_ten_witness :
    to_save_pathways [pW1, pW2, pW3]
      = ((sort_pathways_list [pW1, pW2, pW3]).take
          (min 10 (sort_pathways_list [pW1, pW2, pW3]).length)).map
            (fun p => p.pathway) :=
  (to_save_pathways_first_ten [pW1, pW2, pW3]).1

theorem spGo_spec (narrow : RxnSim → List RxnSim → String) :
    ∀ (n : Nat) (l : List RxnSim) (i : Nat), l.length - i = n →
      (spGo narrow l i).length = l.length ∧
      (∀ j, j < i → (spGo narrow l i)[j]? = l[j]?) ∧
      (∀ j r, i ≤ j → l[j]? = some r →
        (r.tag ≠ "attachment_or_recombination" → (spGo narrow l i)[j]? = some r) ∧
        (r.tag = "attachment_or_recombination" →
          ∃ s, (spGo narrow l i)[j]? = some { r with tag := s })) := by
  intro n
  induction n with
  | zero =>
    intro l i hn
    have hge : ¬ i < l.length := by omega
    rw [spGo, dif_neg hge]
    refine ⟨rfl, fun j _ => rfl, ?_⟩
    intro j r hij hjr
    have hlt : j < l.length := by
      by_contra hcon
      rw [List.getElem?_eq_none (by omega)] at hjr
      cases hjr
    exact absurd hlt (by omega)
  | succ m ihm =>
    intro l i hn
    have h : i < l.length := by omega
    rw [spGo, dif_pos h]
    by_cases htag : l[i].tag = "attachment_or_recombination"
    · rw [if_pos htag]
      obtain ⟨ih1, ih2, ih3⟩ :=
        ihm (l.set i { l[i] with tag := narrow l[i] l }) (i + 1)
          (by simp only [List.length_set]; omega)
      refine ⟨by rw [ih1]; simp, ?_, ?_⟩
      · intro j hj
        rw [ih2 j (by omega)]
        exact List.getElem?_set_ne (by omega)
      · intro j r hij hjr
        by_cases hji : j = i
        · subst hji
          have hrr : r = l[j] := by
            rw [List.getElem?_eq_getElem h] at hjr
            exact (Option.some.inj hjr).symm
          constructor
          · intro hne
            exact absurd (by rw [hrr]; exact htag) hne
          · intro _
            refine ⟨narrow l[j] l, ?_⟩
            rw [ih2 j (by omega), List.getElem?_set_eq_of_lt _ h, hrr]
        · have hjr2 : (l.set i { l[i] with tag := narrow l[i] l })[j]? = some r := by
            rw [List.getElem?_set_ne (by omega)]
            exact hjr
          exact ih3 j r (by omega) hjr2
    · rw [if_neg htag]
      obtain ⟨ih1, ih2, ih3⟩ := ihm l (i + 1) (by omega)
      refine ⟨ih1, ?_, ?_⟩
      · intro j hj
        exact ih2 j (by omega)
      · intro j r hij hjr
        by_cases hji : j = i
        · subst hji
          have hrr : r = l[j] := by
            rw [List.getElem?_eq_getElem h] at hjr
            exact (Option.some.inj hjr).symm
          constructor
          · intro _
            rw [ih2 j (by omega)]
            exact hjr
          · intro htagA
            exact absurd (by rw [← hrr]; exact htagA) htag
        · exact ih3 j r (by omega) hjr

/-- C7: the module-level second pass reassigns the tag only of reactions
currently tagged "attachment_or_recombination" (to a value produced by
`narrow_down_ionization_type` on the evolving population); every reaction
with any other tag is returned unchanged in all fields, and the population
length is preserved. -/
theorem second_pass_only_retags_ambiguous
    (narrow : RxnSim → List RxnSim → String) (rxns : List RxnSim) :
    (second_pass narrow rxns).length = rxns.length ∧
    ∀ (j : Nat) (r : RxnSim), rxns[j]? = some r →
      (r.tag ≠ "attachment_or_recombination" →
        (second_pass narrow rxns)[j]? = some r) ∧
      (r.tag = "attachment_or_recombination" →
        ∃ s, (second_pass narrow rxns)[j]? = some { r with tag := s }) := by
  obtain ⟨h1, _, h3⟩ := spGo_spec narrow (rxns.length - 0) rxns 0 rfl
  exact ⟨h1, fun j r hjr => h3 j r (Nat.zero_le j) hjr⟩

/-- Witness for C7 at the concrete fixture: the "fragmentation"-tagged
reaction at index 0 is untouched, the ambiguous one at index 1 is
retagged. -/
theorem second_pass_only_retags_ambiguous_witness :
    rxnsW[0]? = some rxnW1 ∧
    (second_pass narrowW rxnsW)[0]? = some rxnW1 :=
  ⟨rfl,
   ((second_pass_only_retags_ambiguous narrowW rxnsW).2 0 rxnW1 rfl).1 (by decide)⟩

/-- C6: `add_high_frequency_P2_reactions` never propagates an exception to
its caller: whatever the environment does and however the external
`process_P2_reaction` behaves, every exception the try block ends in is
converted into the corresponding descriptive message and a normal return
carrying the state reached so far; in particular a missing directory or
missing 'reaction_tally.json' produces exactly the documented message and
leaves the state untouched. -/
theorem add_high_frequency_P2_reactions_catches_all
    (env : String → LoadResult)
    (process : RawRxn → SimState → Except String SimState)
    (directory : String) (st : SimState) (frequency_threshold : Nat) :
    (∀ e, (tryBody env process directory st frequency_threshold).2 = some e →
      add_high_frequency_P2_reactions env process directory st frequency_threshold
        = ((tryBody env process directory st frequency_threshold).1,
           [errMessage directory e])) ∧
    ((tryBody env process directory st frequency_threshold).2 = none →
      add_high_frequency_P2_reactions env process directory st frequency_threshold
        = ((tryBody env process directory st frequency_threshold).1, [])) ∧
    (env directory = LoadResult.fileNotFound →
      add_high_frequency_P2_reactions env process directory st frequency_threshold
        = (st, ["Error: The directory " ++ directory ++
                " or the file 'reaction_tally.json' does not exist."])) := by
  refine ⟨?_, ?_, ?_⟩
  · intro e he
    unfold add_high_frequency_P2_reactions
    rcases htb : tryBody env process directory st frequency_threshold with ⟨st2, o⟩
    rw [htb] at he
    have ho : o = some e := he
    subst ho
    rfl
  · intro he
    unfold add_high_frequency_P2_reactions
    rcases htb : tryBody env process directory st frequency_threshold with ⟨st2, o⟩
    rw [htb] at he
    have ho : o = none := he
    subst ho
    rfl
  · intro henv
    unfold add_high_frequency_P2_reactions tryBody
    rw [henv]
    rfl

/-- Witness for C6: with every directory missing, the call returns
normally with the input state and the documented message. -/
theorem add_high_frequency_P2_reactions_catches_all_witness :
    add_high_frequency_P2_reactions envW processW "P2dir" stW 500
      = (stW, ["Error: The directory " ++ "P2dir" ++
               " or the file 'reaction_tally.json' does not exist."]) :=
  (add_high_frequency_P2_reactions_catches_all envW processW "P2dir" stW 500).2.2 rfl

theorem dGet_dSet_self {α : Type} (d : Dict α) (k : String) (t : NTree α) :
    dGet (dSet d k t) k = some t := by
  induction d with
  | nil => simp [dGet, dSet]
  | cons p rest ih =>
    obtain ⟨k2, t2⟩ := p
    by_cases h : k2 = k <;> simp [dGet, dSet, h, ih]

theorem dGet_dSet_ne {α : Type} (d : Dict α) (k k2 : String) (t : NTree α)
    (h : k ≠ k2) : dGet (dSet d k t) k2 = dGet d k2 := by
  induction d with
  | nil => simp [dGet, dSet, h]
  | cons p rest ih =>
    obtain ⟨k3, t3⟩ := p
    by_cases h3 : k3 = k
    · subst h3
      simp [dGet, dSet, h, ih]
    · simp [dGet, dSet, h3, ih]

theorem dictCount_dSet_none {α : Type} (d : Dict α) (k : String) (t : NTree α)
    (h : dGet d k = none) :
    dictCount (dSet d k t) = dictCount d + leafCount t := by
  induction d with
  | nil => simp [dSet, dictCount, leafCount, Nat.add_comm]
  | cons p rest ih =>
    obtain ⟨k2, t2⟩ := p
    by_cases h2 : k2 = k
    · rw [dGet, if_pos h2] at h
      cases h
    · rw [dGet, if_neg h2] at h
      rw [dSet, if_neg h2]
      show leafCount t2 + dictCount (dSet rest k t) = leafCount t2 + dictCount rest + leafCount t
      rw [ih h]
      omega

theorem dictCount_dSet_some {α : Type} (d : Dict α) (k : String) (t t0 : NTree α)
    (h : dGet d k = some t0) :
    dictCount (dSet d k t) + leafCount t0 = dictCount d + leafCount t := by
  induction d with
  | nil => cases h
  | cons p rest ih =>
    obtain ⟨k2, t2⟩ := p
    by_cases h2 : k2 = k
    · rw [dGet, if_pos h2] at h
      have ht0 : t0 = t2 := by
        cases h
        rfl
      subst ht0
      rw [dSet, if_pos h2]
      show leafCount t + dictCount rest + leafCount t0 = leafCount t0 + dictCount rest + leafCount t
      omega
    · rw [dGet, if_neg h2] at h
      rw [dSet, if_neg h2]
      show leafCount t2 + dictCount (dSet rest k t) + leafCount t0
        = leafCount t2 + dictCount rest + leafCount t
      have := ih h
      omega

theorem storedAt_nil_path {α : Type} (d : Dict α) : storedAt d [] = none := rfl

theorem storedAt_single {α : Type} (d : Dict α) (k : String) :
    storedAt d [k] = dGet d k := rfl

theorem storedAt_cons2 {α : Type} (d : Dict α) (k k2 : String) (ks : List String) :
    storedAt d (k :: k2 :: ks)
      = match dGet d k with
        | some (NTree.node sub) => storedAt sub (k2 :: ks)
        | _ => none := rfl

theorem storedAt_empty_dict {α : Type} (q : List String) :
    storedAt ([] : Dict α) q = none := by
  match q with
  | [] => rfl
  | [k] => rfl
  | k :: k2 :: ks => rfl

theorem findLeafPath_eq_iff {α : Type} (d : Dict α) (q : List String) (vs : List α) :
    findLeafPath d q = some vs ↔ storedAt d q = some (NTree.leaf vs) := by
  unfold findLeafPath
  cases h : storedAt d q with
  | none => simp
  | some t => cases t <;> simp

theorem isPre_nil_left (p : List String) : isPre [] p := ⟨p, rfl⟩

theorem not_isPre_cons_nil (k : String) (q : List String) : ¬ isPre (k :: q) [] := by
  rintro ⟨t, ht⟩
  cases ht

theorem isPre_cons_iff (k k2 : String) (q p : List String) :
    isPre (k :: q) (k2 :: p) ↔ k = k2 ∧ isPre q p := by
  constructor
  · rintro ⟨t, ht⟩
    injection ht with h1 h2
    exact ⟨h1, t, h2⟩
  · rintro ⟨h1, t, h2⟩
    exact ⟨t, by rw [h1, List.cons_append, h2]⟩

theorem strictPre_nil_iff (p : List String) : strictPre [] p ↔ p ≠ [] := by
  constructor
  · rintro ⟨t, ht, hap⟩
    rw [List.nil_append] at hap
    rw [← hap]
    exact ht
  · intro h
    exact ⟨p, h, rfl⟩

theorem not_strictPre_nil (q : List String) : ¬ strictPre q [] := by
  rintro ⟨t, ht, hap⟩
  rcases List.append_eq_nil.mp hap with ⟨_, h2⟩
  exact ht h2

theorem strictPre_cons_iff (k k2 : String) (q p : List String) :
    strictPre (k :: q) (k2 :: p) ↔ k = k2 ∧ strictPre q p := by
  constructor
  · rintro ⟨t, ht, hap⟩
    injection hap with h1 h2
    exact ⟨h1, t, ht, h2⟩
  · rintro ⟨h1, t, ht, h2⟩
    exact ⟨t, ht, by rw [h1, List.cons_append, h2]⟩

theorem isPre_iff_eq_or_strictPre (q p : List String) :
    isPre q p ↔ q = p ∨ strictPre q p := by
  constructor
  · rintro ⟨t, ht⟩
    cases t with
    | nil => exact Or.inl (by simpa using ht)
    | cons a t2 => exact Or.inr ⟨a :: t2, by simp, ht⟩
  · rintro (h | ⟨t, _, ht⟩)
    · exact ⟨[], by simp [h]⟩
    · exact ⟨t, ht⟩

theorem storedAt_cons_node {α : Type} (d : Dict α) (k k2 : String)
    (ks : List String) (sub : Dict α) (h : dGet d k = some (NTree.node sub)) :
    storedAt d (k :: k2 :: ks) = storedAt sub (k2 :: ks) := by
  rw [storedAt_cons2, h]

theorem storedAt_cons_none {α : Type} (d : Dict α) (k k2 : String)
    (ks : List String) (h : dGet d k = none) :
    storedAt d (k :: k2 :: ks) = none := by
  rw [storedAt_cons2, h]

theorem storedAt_cons_leaf {α : Type} (d : Dict α) (k k2 : String)
    (ks : List String) (vs : List α) (h : dGet d k = some (NTree.leaf vs)) :
    storedAt d (k :: k2 :: ks) = none := by
  rw [storedAt_cons2, h]

theorem findLeafPath_cons_node {α : Type} (d : Dict α) (k k2 : String)
    (ks : List String) (sub : Dict α) (h : dGet d k = some (NTree.node sub)) :
    findLeafPath d (k :: k2 :: ks) = findLeafPath sub (k2 :: ks) := by
  unfold findLeafPath
  rw [storedAt_cons_node d k k2 ks sub h]

theorem add_findLeafPath {α : Type} (v : α) :
    ∀ (keys : List String) (d d2 : Dict α),
      add_value_to_nested_dict v keys d = some d2 →
      findLeafPath d2 keys = some (((findLeafPath d keys).getD []) ++ [v]) := by
  intro keys
  induction keys with
  | nil => intro d d2 h; cases h
  | cons k ks ih =>
    intro d d2 h
    cases ks with
    | nil =>
      simp only [add_value_to_nested_dict] at h
      cases hg : dGet d k with
      | none =>
        rw [hg] at h
        have hd2 : d2 = dSet d k (NTree.leaf [v]) := (Option.some.inj h).symm
        subst hd2
        simp [findLeafPath, storedAt_single, dGet_dSet_self, hg]
      | some t =>
        cases t with
        | leaf vs =>
          rw [hg] at h
          have hd2 : d2 = dSet d k (NTree.leaf (vs ++ [v])) := (Option.some.inj h).symm
          subst hd2
          simp [findLeafPath, storedAt_single, dGet_dSet_self, hg]
        | node sub =>
          rw [hg] at h
          cases h
    | cons k2 ks2 =>
      simp only [add_value_to_nested_dict] at h
      cases hg : dGet d k with
      | none =>
        rw [hg] at h
        cases hsub : add_value_to_nested_dict v (k2 :: ks2) ([] : Dict α) with
        | none => rw [hsub] at h; cases h
        | some sub =>
          rw [hsub] at h
          have hd2 : d2 = dSet d k (NTree.node sub) := (Option.some.inj h).symm
          subst hd2
          have hihs := ih ([] : Dict α) sub hsub
          have hemp : findLeafPath ([] : Dict α) (k2 :: ks2) = none := by
            unfold findLeafPath
            rw [storedAt_empty_dict]
          rw [hemp] at hihs
          rw [findLeafPath_cons_node (dSet d k (NTree.node sub)) k k2 ks2 sub
              (dGet_dSet_self d k (NTree.node sub))]
          have hR : findLeafPath d (k :: k2 :: ks2) = none := by
            unfold findLeafPath
            rw [storedAt_cons_none d k k2 ks2 hg]
          rw [hR, hihs]
      | some t =>
        cases t with
        | node sub =>
          rw [hg] at h
          dsimp only at h
          cases hsub : add_value_to_nested_dict v (k2 :: ks2) sub with
          | none => rw [hsub] at h; cases h
          | some sub2 =>
            rw [hsub] at h
            have hd2 : d2 = dSet d k (NTree.node sub2) := (Option.some.inj h).symm
            subst hd2
            have hihs := ih sub sub2 hsub
            rw [findLeafPath_cons_node (dSet d k (NTree.node sub2)) k k2 ks2 sub2
                (dGet_dSet_self d k (NTree.node sub2))]
            rw [findLeafPath_cons_node d k k2 ks2 sub hg]
            exact hihs
        | leaf vs =>
          rw [hg] at h
          cases h

theorem add_frame {α : Type} (v : α) :
    ∀ (keys : List String) (d d2 : Dict α),
      add_value_to_nested_dict v keys d = some d2 →
      ∀ q, ¬ isPre q keys → storedAt d2 q = storedAt d q := by
  intro keys
  induction keys with
  | nil => intro d d2 h; cases h
  | cons k ks ih =>
    intro d d2 h q hq
    cases ks with
    | nil =>
      simp only [add_value_to_nested_dict] at h
      cases q with
      | nil => rfl
      | cons k1 qt =>
        cases qt with
        | nil =>
          have hk1 : k1 ≠ k := by
            intro hkk
            exact hq ⟨[], by simp [hkk]⟩
          cases hg : dGet d k with
          | none =>
            rw [hg] at h
            have hd2 := (Option.some.inj h).symm
            subst hd2
            rw [storedAt_single, storedAt_single,
              dGet_dSet_ne d k k1 _ (Ne.symm hk1)]
          | some t =>
            cases t with
            | leaf vs =>
              rw [hg] at h
              have hd2 := (Option.some.inj h).symm
              subst hd2
              rw [storedAt_single, storedAt_single,
                dGet_dSet_ne d k k1 _ (Ne.symm hk1)]
            | node sub =>
              rw [hg] at h
              cases h
        | cons q2 qs =>
          cases hg : dGet d k with
          | none =>
            rw [hg] at h
            have hd2 := (Option.some.inj h).symm
            subst hd2
            by_cases hk1 : k1 = k
            · subst hk1
              rw [storedAt_cons_leaf _ _ _ _ _ (dGet_dSet_self d k1 _),
                storedAt_cons_none d k1 q2 qs hg]
            · rw [storedAt_cons2, storedAt_cons2,
                dGet_dSet_ne d k k1 _ (Ne.symm hk1)]
          | some t =>
            cases t with
            | leaf vs =>
              rw [hg] at h
              have hd2 := (Option.some.inj h).symm
              subst hd2
              by_cases hk1 : k1 = k
              · subst hk1
                rw [storedAt_cons_leaf _ _ _ _ _ (dGet_dSet_self d k1 _),
                  storedAt_cons_leaf d k1 q2 qs vs hg]
              · rw [storedAt_cons2, storedAt_cons2,
                  dGet_dSet_ne d k k1 _ (Ne.symm hk1)]
            | node sub =>
              rw [hg] at h
              cases h
    | cons kb ks2 =>
      simp only [add_value_to_nested_dict] at h
      cases hg : dGet d k with
      | none =>
        rw [hg] at h
        cases hsub : add_value_to_nested_dict v (kb :: ks2) ([] : Dict α) with
        | none => rw [hsub] at h; cases h
        | some sub =>
          rw [hsub] at h
          have hd2 := (Option.some.inj h).symm
          subst hd2
          cases q with
          | nil => rfl
          | cons k1 qt =>
            by_cases hk1 : k1 = k
            · subst hk1
              cases qt with
              | nil => exact absurd ⟨kb :: ks2, rfl⟩ hq
              | cons q2 qs =>
                have hq2 : ¬ isPre (q2 :: qs) (kb :: ks2) := fun hp =>
                  hq ((isPre_cons_iff k1 k1 (q2 :: qs) (kb :: ks2)).mpr ⟨rfl, hp⟩)
                rw [storedAt_cons_node _ k1 q2 qs sub (dGet_dSet_self d k1 _),
                  storedAt_cons_none d k1 q2 qs hg,
                  ih ([] : Dict α) sub hsub (q2 :: qs) hq2, storedAt_empty_dict]
            · cases qt with
              | nil =>
                rw [storedAt_single, storedAt_single,
                  dGet_dSet_ne d k k1 _ (Ne.symm hk1)]
              | cons q2 qs =>
                rw [storedAt_cons2, storedAt_cons2,
                  dGet_dSet_ne d k k1 _ (Ne.symm hk1)]
      | some t =>
        cases t with
        | node sub =>
          rw [hg] at h
          dsimp only at h
          cases hsub : add_value_to_nested_dict v (kb :: ks2) sub with
          | none => rw [hsub] at h; cases h
          | some sub2 =>
            rw [hsub] at h
            have hd2 := (Option.some.inj h).symm
            subst hd2
            cases q with
            | nil => rfl
            | cons k1 qt =>
              by_cases hk1 : k1 = k
              · subst hk1
                cases qt with
                | nil => exact absurd ⟨kb :: ks2, rfl⟩ hq
                | cons q2 qs =>
                  have hq2 : ¬ isPre (q2 :: qs) (kb :: ks2) := fun hp =>
                    hq ((isPre_cons_iff k1 k1 (q2 :: qs) (kb :: ks2)).mpr ⟨rfl, hp⟩)
                  rw [storedAt_cons_node _ k1 q2 qs sub2 (dGet_dSet_self d k1 _),
                    storedAt_cons_node d k1 q2 qs sub hg]
                  exact ih sub sub2 hsub (q2 :: qs) hq2
              · cases qt with
                | nil =>
                  rw [storedAt_single, storedAt_single,
                    dGet_dSet_ne d k k1 _ (Ne.symm hk1)]
                | cons q2 qs =>
                  rw [storedAt_cons2, storedAt_cons2,
                    dGet_dSet_ne d k k1 _ (Ne.symm hk1)]
        | leaf vs =>
          rw [hg] at h
          cases h

theorem add_strictPre_node {α : Type} (v : α) :
    ∀ (keys : List String) (d d2 : Dict α),
      add_value_to_nested_dict v keys d = some d2 →
      ∀ q, q ≠ [] → strictPre q keys → isNodeAt d2 q := by
  intro keys
  induction keys with
  | nil => intro d d2 h; cases h
  | cons k ks ih =>
    intro d d2 h q hq hsp
    cases ks with
    | nil =>
      cases q with
      | nil => exact absurd rfl hq
      | cons k1 qt =>
        rw [strictPre_cons_iff] at hsp
        exact absurd hsp.2 (not_strictPre_nil qt)
    | cons kb ks2 =>
      simp only [add_value_to_nested_dict] at h
      cases q with
      | nil => exact absurd rfl hq
      | cons k1 qt =>
        rw [strictPre_cons_iff] at hsp
        obtain ⟨hk1, hsp2⟩ := hsp
        subst hk1
        cases hg : dGet d k1 with
        | none =>
          rw [hg] at h
          cases hsub : add_value_to_nested_dict v (kb :: ks2) ([] : Dict α) with
          | none => rw [hsub] at h; cases h
          | some sub =>
            rw [hsub] at h
            have hd2 := (Option.some.inj h).symm
            subst hd2
            cases qt with
            | nil =>
              exact ⟨sub, by rw [storedAt_single, dGet_dSet_self]⟩
            | cons q2 qs =>
              obtain ⟨sub3, hsub3⟩ :=
                ih ([] : Dict α) sub hsub (q2 :: qs) (by simp) hsp2
              refine ⟨sub3, ?_⟩
              rw [storedAt_cons_node _ k1 q2 qs sub (dGet_dSet_self d k1 _)]
              exact hsub3
        | some t =>
          cases t with
          | node sub =>
            rw [hg] at h
            dsimp only at h
            cases hsub : add_value_to_nested_dict v (kb :: ks2) sub with
            | none => rw [hsub] at h; cases h
            | some sub2 =>
              rw [hsub] at h
              have hd2 := (Option.some.inj h).symm
              subst hd2
              cases qt with
              | nil =>
                exact ⟨sub2, by rw [storedAt_single, dGet_dSet_self]⟩
              | cons q2 qs =>
                obtain ⟨sub3, hsub3⟩ :=
                  ih sub sub2 hsub (q2 :: qs) (by simp) hsp2
                refine ⟨sub3, ?_⟩
                rw [storedAt_cons_node _ k1 q2 qs sub2 (dGet_dSet_self d k1 _)]
                exact hsub3
          | leaf vs =>
            rw [hg] at h
            cases h

theorem add_isSome_iff {α : Type} (v : α) :
    ∀ (keys : List String) (d : Dict α),
      (∃ d2, add_value_to_nested_dict v keys d = some d2) ↔
      (keys ≠ [] ∧ (∀ q, q ≠ [] → strictPre q keys → ¬ isLeafAt d q) ∧
        ¬ isNodeAt d keys) := by
  intro keys
  induction keys with
  | nil =>
    intro d
    constructor
    · rintro ⟨d2, h⟩
      cases h
    · rintro ⟨h, _, _⟩
      exact absurd rfl h
  | cons k ks ih =>
    intro d
    cases ks with
    | nil =>
      constructor
      · rintro ⟨d2, h⟩
        refine ⟨by simp, ?_, ?_⟩
        · intro q hq hsp
          cases q with
          | nil => exact absurd rfl hq
          | cons k1 qt =>
            rw [strictPre_cons_iff] at hsp
            exact absurd hsp.2 (not_strictPre_nil qt)
        · rintro ⟨sub, hsub⟩
          rw [storedAt_single] at hsub
          simp only [add_value_to_nested_dict] at h
          rw [hsub] at h
          cases h
      · rintro ⟨_, _, hnode⟩
        simp only [add_value_to_nested_dict]
        cases hg : dGet d k with
        | none => exact ⟨_, rfl⟩
        | some t =>
          cases t with
          | leaf vs => exact ⟨_, rfl⟩
          | node sub =>
            exact absurd ⟨sub, by rw [storedAt_single]; exact hg⟩ hnode
    | cons kb ks2 =>
      constructor
      · rintro ⟨d2, h⟩
        simp only [add_value_to_nested_dict] at h
        cases hg : dGet d k with
        | none =>
          refine ⟨by simp, ?_, ?_⟩
          · intro q hq hsp
            cases q with
            | nil => exact absurd rfl hq
            | cons k1 qt =>
              rw [strictPre_cons_iff] at hsp
              obtain ⟨hk1, hsp2⟩ := hsp
              subst hk1
              rintro ⟨vs, hvs⟩
              cases qt with
              | nil =>
                rw [storedAt_single, hg] at hvs
                cases hvs
              | cons q2 qs =>
                rw [storedAt_cons_none d k1 q2 qs hg] at hvs
                cases hvs
          · rintro ⟨sub, hsub⟩
            rw [storedAt_cons_none d k kb ks2 hg] at hsub
            cases hsub
        | some t =>
          cases t with
          | node sub =>
            rw [hg] at h
            dsimp only at h
            have hin : ∃ sub2, add_value_to_nested_dict v (kb :: ks2) sub = some sub2 := by
              cases hsub : add_value_to_nested_dict v (kb :: ks2) sub with
              | none =>
                rw [hsub] at h
                cases h
              | some s2 => exact ⟨s2, rfl⟩
            obtain ⟨_, hleaf2, hnode2⟩ := (ih sub).mp hin
            refine ⟨by simp, ?_, ?_⟩
            · intro q hq hsp
              cases q with
              | nil => exact absurd rfl hq
              | cons k1 qt =>
                rw [strictPre_cons_iff] at hsp
                obtain ⟨hk1, hsp2⟩ := hsp
                subst hk1
                cases qt with
                | nil =>
                  rintro ⟨vs, hvs⟩
                  rw [storedAt_single, hg] at hvs
                  cases hvs
                | cons q2 qs =>
                  rintro ⟨vs, hvs⟩
                  rw [storedAt_cons_node d k1 q2 qs sub hg] at hvs
                  exact hleaf2 (q2 :: qs) (by simp) hsp2 ⟨vs, hvs⟩
            · rintro ⟨subx, hsubx⟩
              rw [storedAt_cons_node d k kb ks2 sub hg] at hsubx
              exact hnode2 ⟨subx, hsubx⟩
          | leaf vs =>
            rw [hg] at h
            cases h
      · rintro ⟨_, hleaf, hnode⟩
        simp only [add_value_to_nested_dict]
        cases hg : dGet d k with
        | none =>
          have hin : ∃ sub, add_value_to_nested_dict v (kb :: ks2) ([] : Dict α) = some sub := by
            rw [ih ([] : Dict α)]
            refine ⟨by simp, ?_, ?_⟩
            · intro q hq hsp
              rintro ⟨vs, hvs⟩
              rw [storedAt_empty_dict] at hvs
              cases hvs
            · rintro ⟨sub, hsub⟩
              rw [storedAt_empty_dict] at hsub
              cases hsub
          obtain ⟨sub, hsub⟩ := hin
          rw [hsub]
          exact ⟨_, rfl⟩
        | some t =>
          cases t with
          | node sub =>
            have hin : ∃ sub2, add_value_to_nested_dict v (kb :: ks2) sub = some sub2 := by
              rw [ih sub]
              refine ⟨by simp, ?_, ?_⟩
              · intro q hq hsp
                rintro ⟨vs, hvs⟩
                refine hleaf (k :: q) (by simp) ?_ ⟨vs, ?_⟩
                · rw [strictPre_cons_iff]
                  exact ⟨rfl, hsp⟩
                · cases q with
                  | nil => exact absurd rfl hq
                  | cons q2 qs =>
                    rw [storedAt_cons_node d k q2 qs sub hg]
                    exact hvs
              · rintro ⟨subx, hsubx⟩
                exact hnode ⟨subx, by
                  rw [storedAt_cons_node d k kb ks2 sub hg]
                  exact hsubx⟩
            obtain ⟨sub2, hsub2⟩ := hin
            dsimp only
            rw [hsub2]
            exact ⟨_, rfl⟩
          | leaf vs =>
            have hsp : strictPre [k] (k :: kb :: ks2) := by
              rw [strictPre_cons_iff]
              exact ⟨rfl, (strictPre_nil_iff _).mpr (by simp)⟩
            exact absurd
              (⟨vs, by rw [storedAt_single]; exact hg⟩ : isLeafAt d [k])
              (hleaf [k] (by simp) hsp)

theorem add_count {α : Type} (v : α) :
    ∀ (keys : List String) (d d2 : Dict α),
      add_value_to_nested_dict v keys d = some d2 →
      dictCount d2 = dictCount d + 1 := by
  intro keys
  induction keys with
  | nil => intro d d2 h; cases h
  | cons k ks ih =>
    intro d d2 h
    cases ks with
    | nil =>
      simp only [add_value_to_nested_dict] at h
      cases hg : dGet d k with
      | none =>
        rw [hg] at h
        have hd2 := (Option.some.inj h).symm
        subst hd2
        rw [dictCount_dSet_none d k _ hg]
        rfl
      | some t =>
        cases t with
        | leaf vs =>
          rw [hg] at h
          have hd2 := (Option.some.inj h).symm
          subst hd2
          have hset := dictCount_dSet_some d k (NTree.leaf (vs ++ [v])) (NTree.leaf vs) hg
          have h1 : leafCount (NTree.leaf vs) = vs.length := rfl
          have h2 : leafCount (NTree.leaf (vs ++ [v])) = vs.length + 1 := by
            show (vs ++ [v]).length = vs.length + 1
            simp
          rw [h1, h2] at hset
          omega
        | node sub =>
          rw [hg] at h
          cases h
    | cons kb ks2 =>
      simp only [add_value_to_nested_dict] at h
      cases hg : dGet d k with
      | none =>
        rw [hg] at h
        cases hsub : add_value_to_nested_dict v (kb :: ks2) ([] : Dict α) with
        | none =>
          rw [hsub] at h
          cases h
        | some sub =>
          rw [hsub] at h
          have hd2 := (Option.some.inj h).symm
          subst hd2
          rw [dictCount_dSet_none d k _ hg]
          have hih := ih ([] : Dict α) sub hsub
          have h1 : leafCount (NTree.node sub) = dictCount sub := rfl
          have h2 : dictCount ([] : Dict α) = 0 := rfl
          rw [h1]
          omega
      | some t =>
        cases t with
        | node sub =>
          rw [hg] at h
          dsimp only at h
          cases hsub : add_value_to_nested_dict v (kb :: ks2) sub with
          | none =>
            rw [hsub] at h
            cases h
          | some sub2 =>
            rw [hsub] at h
            have hd2 := (Option.some.inj h).symm
            subst hd2
            have hset := dictCount_dSet_some d k (NTree.node sub2) (NTree.node sub) hg
            have h1 : leafCount (NTree.node sub) = dictCount sub := rfl
            have h2 : leafCount (NTree.node sub2) = dictCount sub2 := rfl
            have h3 := ih sub sub2 hsub
            rw [h1, h2] at hset
            omega
        | leaf vs =>
          rw [hg] at h
          cases h

theorem add_isLeafAt_iff {α : Type} (v : α) (p : List String) (d d1 : Dict α)
    (h : add_value_to_nested_dict v p d = some d1) (q : List String) :
    isLeafAt d1 q ↔ (isLeafAt d q ∨ q = p) := by
  have hsome : ∃ x, add_value_to_nested_dict v p d = some x := ⟨d1, h⟩
  obtain ⟨hpne, hleaf, hnode⟩ := (add_isSome_iff v p d).mp hsome
  constructor
  · rintro ⟨vs, hvs⟩
    by_cases hqp : isPre q p
    · rcases (isPre_iff_eq_or_strictPre q p).mp hqp with heq | hsp
      · exact Or.inr heq
      · by_cases hqnil : q = []
        · subst hqnil
          rw [storedAt_nil_path] at hvs
          cases hvs
        · obtain ⟨sub, hsub⟩ := add_strictPre_node v p d d1 h q hqnil hsp
          rw [hsub] at hvs
          exact absurd (Option.some.inj hvs) (fun hx => NTree.noConfusion hx)
    · rw [add_frame v p d d1 h q hqp] at hvs
      exact Or.inl ⟨vs, hvs⟩
  · rintro (hlf | heq)
    · obtain ⟨vs, hvs⟩ := hlf
      by_cases hqp : isPre q p
      · rcases (isPre_iff_eq_or_strictPre q p).mp hqp with heq | hsp
        · subst heq
          have h1 := add_findLeafPath v q d d1 h
          exact ⟨_, (findLeafPath_eq_iff _ _ _).mp h1⟩
        · by_cases hqnil : q = []
          · subst hqnil
            rw [storedAt_nil_path] at hvs
            cases hvs
          · exact absurd ⟨vs, hvs⟩ (hleaf q hqnil hsp)
      · rw [isLeafAt, add_frame v p d d1 h q hqp]
        exact ⟨vs, hvs⟩
    · subst heq
      have h1 := add_findLeafPath v q d d1 h
      exact ⟨_, (findLeafPath_eq_iff _ _ _).mp h1⟩

theorem add_isNodeAt_iff {α : Type} (v : α) (p : List String) (d d1 : Dict α)
    (h : add_value_to_nested_dict v p d = some d1) (q : List String) (hq : q ≠ []) :
    isNodeAt d1 q ↔ (isNodeAt d q ∨ strictPre q p) := by
  have hsome : ∃ x, add_value_to_nested_dict v p d = some x := ⟨d1, h⟩
  obtain ⟨hpne, hleaf, hnode⟩ := (add_isSome_iff v p d).mp hsome
  constructor
  · rintro ⟨sub, hsub⟩
    by_cases hqp : isPre q p
    · rcases (isPre_iff_eq_or_strictPre q p).mp hqp with heq | hsp
      · subst heq
        have h1 := add_findLeafPath v q d d1 h
        have h2 := (findLeafPath_eq_iff _ _ _).mp h1
        rw [h2] at hsub
        exact absurd (Option.some.inj hsub) (fun hx => NTree.noConfusion hx)
      · exact Or.inr hsp
    · rw [add_frame v p d d1 h q hqp] at hsub
      exact Or.inl ⟨sub, hsub⟩
  · rintro (hnd | hsp)
    · obtain ⟨sub, hsub⟩ := hnd
      by_cases hqp : isPre q p
      · rcases (isPre_iff_eq_or_strictPre q p).mp hqp with heq | hsp2
        · subst heq
          exact absurd ⟨sub, hsub⟩ hnode
        · exact add_strictPre_node v p d d1 h q hq hsp2
      · rw [isNodeAt, add_frame v p d d1 h q hqp]
        exact ⟨sub, hsub⟩
    · exact add_strictPre_node v p d d1 h q hq hsp

theorem insertAll_paths_ne {α : Type} :
    ∀ (ps : List (α × List String)) (d0 d : Dict α),
      insertAll ps d0 = some d → ∀ pr ∈ ps, pr.2 ≠ [] := by
  intro ps
  induction ps with
  | nil =>
    intro d0 d _ pr hpr
    cases hpr
  | cons pr0 rest ih =>
    intro d0 d h pr hpr
    obtain ⟨v, p⟩ := pr0
    simp only [insertAll] at h
    cases hadd : add_value_to_nested_dict v p d0 with
    | none =>
      rw [hadd] at h
      cases h
    | some d1 =>
      rw [hadd] at h
      rcases List.mem_cons.mp hpr with heq | hmem
      · subst heq
        intro hpnil
        have hp : p = [] := hpnil
        subst hp
        cases hadd
      · exact ih d1 d h pr hmem

theorem insertAll_chars {α : Type} :
    ∀ (ps : List (α × List String)) (d0 d : Dict α),
      insertAll ps d0 = some d →
      ∀ q, q ≠ [] →
        (isLeafAt d q ↔ (isLeafAt d0 q ∨ ∃ pr ∈ ps, pr.2 = q)) ∧
        (isNodeAt d q ↔ (isNodeAt d0 q ∨ ∃ pr ∈ ps, strictPre q pr.2)) := by
  intro ps
  induction ps with
  | nil =>
    intro d0 d h q hq
    have hd : d0 = d := Option.some.inj h
    subst hd
    constructor
    · simp
    · simp
  | cons pr0 rest ih =>
    intro d0 d h q hq
    obtain ⟨v, p⟩ := pr0
    simp only [insertAll] at h
    cases hadd : add_value_to_nested_dict v p d0 with
    | none =>
      rw [hadd] at h
      cases h
    | some d1 =>
      rw [hadd] at h
      obtain ⟨ihL, ihN⟩ := ih d1 d h q hq
      constructor
      · rw [ihL, add_isLeafAt_iff v p d0 d1 hadd q]
        constructor
        · rintro ((h0 | hqp) | ⟨pr, hpr, hpq⟩)
          · exact Or.inl h0
          · exact Or.inr ⟨(v, p), List.mem_cons_self _ _, hqp.symm⟩
          · exact Or.inr ⟨pr, List.mem_cons_of_mem _ hpr, hpq⟩
        · rintro (h0 | ⟨pr, hpr, hpq⟩)
          · exact Or.inl (Or.inl h0)
          · rcases List.mem_cons.mp hpr with heq | hmem
            · subst heq
              exact Or.inl (Or.inr hpq.symm)
            · exact Or.inr ⟨pr, hmem, hpq⟩
      · rw [ihN, add_isNodeAt_iff v p d0 d1 hadd q hq]
        constructor
        · rintro ((h0 | hsp) | ⟨pr, hpr, hsp⟩)
          · exact Or.inl h0
          · exact Or.inr ⟨(v, p), List.mem_cons_self _ _, hsp⟩
          · exact Or.inr ⟨pr, List.mem_cons_of_mem _ hpr, hsp⟩
        · rintro (h0 | ⟨pr, hpr, hsp⟩)
          · exact Or.inl (Or.inl h0)
          · rcases List.mem_cons.mp hpr with heq | hmem
            · subst heq
              exact Or.inl (Or.inr hsp)
            · exact Or.inr ⟨pr, hmem, hsp⟩

theorem insertAll_spec {α : Type} :
    ∀ (ps : List (α × List String)) (d0 : Dict α),
      (∀ pr ∈ ps, pr.2 ≠ []) →
      List.Pairwise (fun a b => ¬ isPre a.2 b.2 ∧ ¬ isPre b.2 a.2) ps →
      (∀ pr ∈ ps, (∀ q, q ≠ [] → strictPre q pr.2 → ¬ isLeafAt d0 q) ∧
        storedAt d0 pr.2 = none) →
      ∃ d, insertAll ps d0 = some d ∧
        dictCount d = dictCount d0 + ps.length ∧
        (∀ pr ∈ ps, findLeafPath d pr.2 = some [pr.1]) ∧
        (∀ q, (∀ pr ∈ ps, ¬ isPre q pr.2) → storedAt d q = storedAt d0 q) := by
  intro ps
  induction ps with
  | nil =>
    intro d0 _ _ _
    exact ⟨d0, rfl, by simp, by simp, fun q _ => rfl⟩
  | cons pr0 rest ih =>
    intro d0 hne hpw hfresh
    obtain ⟨v, p⟩ := pr0
    have hp_ne : p ≠ [] := hne (v, p) (List.mem_cons_self _ _)
    obtain ⟨hfresh1, hstored1⟩ := hfresh (v, p) (List.mem_cons_self _ _)
    have hsucc : ∃ d1, add_value_to_nested_dict v p d0 = some d1 := by
      rw [add_isSome_iff]
      refine ⟨hp_ne, hfresh1, ?_⟩
      rintro ⟨sub, hsub⟩
      rw [hstored1] at hsub
      cases hsub
    obtain ⟨d1, hd1⟩ := hsucc
    have hpw_head : ∀ pr2 ∈ rest, ¬ isPre p pr2.2 ∧ ¬ isPre pr2.2 p :=
      (List.pairwise_cons.mp hpw).1
    have hpw_rest := (List.pairwise_cons.mp hpw).2
    have hfresh2 : ∀ pr2 ∈ rest,
        (∀ q, q ≠ [] → strictPre q pr2.2 → ¬ isLeafAt d1 q) ∧
        storedAt d1 pr2.2 = none := by
      intro pr2 hpr2
      obtain ⟨hfa, hsa⟩ := hfresh pr2 (List.mem_cons_of_mem _ hpr2)
      obtain ⟨hnp1, hnp2⟩ := hpw_head pr2 hpr2
      constructor
      · intro q hq hsp
        rintro ⟨vs, hvs⟩
        by_cases hqp : isPre q p
        · rcases (isPre_iff_eq_or_strictPre q p).mp hqp with heq | hspq
          · exact hnp1 ((isPre_iff_eq_or_strictPre p pr2.2).mpr (Or.inr (heq ▸ hsp)))
          · obtain ⟨sub, hsub⟩ := add_strictPre_node v p d0 d1 hd1 q hq hspq
            rw [hsub] at hvs
            exact NTree.noConfusion (Option.some.inj hvs)
        · rw [add_frame v p d0 d1 hd1 q hqp] at hvs
          exact hfa q hq hsp ⟨vs, hvs⟩
      · rw [add_frame v p d0 d1 hd1 pr2.2 hnp2]
        exact hsa
    obtain ⟨d, hIns, hCount, hLeaf, hFrame⟩ :=
      ih d1 (fun pr2 h2 => hne pr2 (List.mem_cons_of_mem _ h2)) hpw_rest hfresh2
    refine ⟨d, ?_, ?_, ?_, ?_⟩
    · show insertAll ((v, p) :: rest) d0 = some d
      simp only [insertAll]
      rw [hd1]
      exact hIns
    · rw [hCount, add_count v p d0 d1 hd1]
      simp only [List.length_cons]
      omega
    · intro pr2 hpr2
      rcases List.mem_cons.mp hpr2 with heq | hmem
      · subst heq
        have hstep : findLeafPath d1 p = some [v] := by
          have h1 := add_findLeafPath v p d0 d1 hd1
          have hfd0 : findLeafPath d0 p = none := by
            unfold findLeafPath
            rw [hstored1]
          rw [hfd0] at h1
          simpa using h1
        have hfr : storedAt d p = storedAt d1 p := by
          apply hFrame
          intro pr2 h2
          exact (hpw_head pr2 h2).1
        show findLeafPath d p = some [v]
        unfold findLeafPath at hstep ⊢
        rw [hfr]
        exact hstep
      · exact hLeaf pr2 hmem
    · intro q hq
      rw [hFrame q (fun pr2 h2 => hq pr2 (List.mem_cons_of_mem _ h2)),
        add_frame v p d0 d1 hd1 q (hq (v, p) (List.mem_cons_self _ _))]

/-- C3: a successful `add_value_to_nested_dict` (the classification path is
then necessarily non-empty) appends the value to the leaf list at its full
path — creating missing levels on the way — changes the leaf list of no
other path, and inserting the same value again along the same path
succeeds and leaves two entries in the same leaf list (no
deduplication). -/
theorem add_value_appends_without_overwriting {α : Type} (v : α)
    (keys : List String) (d d2 : Dict α)
    (h : add_value_to_nested_dict v keys d = some d2) :
    findLeafPath d2 keys = some (((findLeafPath d keys).getD []) ++ [v]) ∧
    (∀ q, q ≠ keys → findLeafPath d2 q = findLeafPath d q) ∧
    ∃ d3, add_value_to_nested_dict v keys d2 = some d3 ∧
      findLeafPath d3 keys = some (((findLeafPath d keys).getD []) ++ [v, v]) := by
  have h1 := add_findLeafPath v keys d d2 h
  have hsome : ∃ x, add_value_to_nested_dict v keys d = some x := ⟨d2, h⟩
  obtain ⟨hkne, hleaf, hnode⟩ := (add_isSome_iff v keys d).mp hsome
  refine ⟨h1, ?_, ?_⟩
  · intro q hq
    by_cases hp : isPre q keys
    · rcases (isPre_iff_eq_or_strictPre q keys).mp hp with heq | hsp
      · exact absurd heq hq
      · by_cases hqnil : q = []
        · subst hqnil
          rfl
        · obtain ⟨sub, hsub⟩ := add_strictPre_node v keys d d2 h q hqnil hsp
          have hL : findLeafPath d2 q = none := by
            unfold findLeafPath
            rw [hsub]
          have hnl := hleaf q hqnil hsp
          have hR : findLeafPath d q = none := by
            cases hfd : findLeafPath d q with
            | none => rfl
            | some vs =>
              exact absurd ⟨vs, (findLeafPath_eq_iff d q vs).mp hfd⟩ hnl
          rw [hL, hR]
    · have hfr := add_frame v keys d d2 h q hp
      unfold findLeafPath
      rw [hfr]
  · have hsucc2 : ∃ d3, add_value_to_nested_dict v keys d2 = some d3 := by
      rw [add_isSome_iff]
      refine ⟨hkne, ?_, ?_⟩
      · intro q hq hsp
        obtain ⟨sub, hsub⟩ := add_strictPre_node v keys d d2 h q hq hsp
        rintro ⟨vs, hvs⟩
        rw [hsub] at hvs
        exact NTree.noConfusion (Option.some.inj hvs)
      · rintro ⟨sub, hsub⟩
        have hlf := (findLeafPath_eq_iff _ _ _).mp h1
        rw [hlf] at hsub
        exact NTree.noConfusion (Option.some.inj hsub)
    obtain ⟨d3, h3⟩ := hsucc2
    refine ⟨d3, h3, ?_⟩
    have h2 := add_findLeafPath v keys d2 d3 h3
    rw [h1] at h2
    rw [h2]
    simp

/-- Witness for C3 at the concrete fixture: inserting crW1 twice along its
classification path leaves two copies in the same leaf list. -/
theorem add_value_appends_without_overwriting_witness :
    ∃ d2, add_value_to_nested_dict crW1 crW1.classification_list
        ([] : Dict RxnSim) = some d2 ∧
      findLeafPath d2 crW1.classification_list = some [crW1] ∧
      ∃ d3, add_value_to_nested_dict crW1 crW1.classification_list d2 = some d3 ∧
        findLeafPath d3 crW1.classification_list = some [crW1, crW1] := by
  obtain ⟨d2, hd2⟩ : ∃ d2, add_value_to_nested_dict crW1 crW1.classification_list
      ([] : Dict RxnSim) = some d2 := ⟨_, rfl⟩
  obtain ⟨hA, _, d3, hd3, hB⟩ :=
    add_value_appends_without_overwriting crW1 crW1.classification_list
      ([] : Dict RxnSim) d2 hd2
  have hemp : findLeafPath ([] : Dict RxnSim) crW1.classification_list = none := by
    unfold findLeafPath
    rw [storedAt_empty_dict]
  rw [hemp] at hA hB
  exact ⟨d2, hd2, by simpa using hA, d3, hd3, by simpa using hB⟩

/-- C4 as written fails when a classification path is empty: the insert
raises instead of storing the reaction, so no tree with one leaf entry is
produced.  The input [crW0] has pairwise distinct, prefix-free paths
(vacuously), yet the build yields an error. -/
theorem insert_reactions_empty_path_counterexample :
    List.Pairwise (fun a b =>
      ¬ isPre a.classification_list b.classification_list ∧
      ¬ isPre b.classification_list a.classification_list) [crW0] ∧
    insert_reactions [crW0] ([] : Dict RxnSim) = none := by
  constructor
  · exact List.pairwise_singleton _ _
  · rfl

/-- C4 (amended with non-empty classification paths): inserting N
reactions whose classification paths are non-empty, pairwise distinct and
prefix-free into the empty tree succeeds and yields a tree with exactly N
leaf entries in total, each reaction sitting alone in the leaf reached by
its full classification path. -/
theorem insert_reactions_distinct_paths
    (rs : List RxnSim)
    (hne : ∀ r ∈ rs, r.classification_list ≠ [])
    (hpw : List.Pairwise (fun a b =>
      ¬ isPre a.classification_list b.classification_list ∧
      ¬ isPre b.classification_list a.classification_list) rs) :
    ∃ d, insert_reactions rs ([] : Dict RxnSim) = some d ∧
      dictCount d = rs.length ∧
      ∀ r ∈ rs, findLeafPath d r.classification_list = some [r] := by
  have hrel : ∀ (l : List RxnSim) (d : Dict RxnSim),
      insert_reactions l d
        = insertAll (l.map (fun r => (r, r.classification_list))) d := by
    intro l
    induction l with
    | nil => intro d; rfl
    | cons r rest ihl =>
      intro d
      simp only [insert_reactions, add_reaction_to_dictionary, List.map_cons,
        insertAll]
      cases h : add_value_to_nested_dict r r.classification_list d with
      | none => rfl
      | some d2 => exact ihl d2
  rw [hrel]
  have hne2 : ∀ pr ∈ rs.map (fun r => (r, r.classification_list)), pr.2 ≠ [] := by
    intro pr hpr
    obtain ⟨r, hr, heq⟩ := List.mem_map.mp hpr
    rw [← heq]
    exact hne r hr
  have hpw2 : List.Pairwise (fun a b => ¬ isPre a.2 b.2 ∧ ¬ isPre b.2 a.2)
      (rs.map (fun r => (r, r.classification_list))) := by
    exact List.Pairwise.map _ (fun a b hab => hab) hpw
  have hfresh : ∀ pr ∈ rs.map (fun r => (r, r.classification_list)),
      (∀ q, q ≠ [] → strictPre q pr.2 → ¬ isLeafAt ([] : Dict RxnSim) q) ∧
      storedAt ([] : Dict RxnSim) pr.2 = none := by
    intro pr _
    refine ⟨?_, storedAt_empty_dict _⟩
    intro q _ _
    rintro ⟨vs, hvs⟩
    rw [storedAt_empty_dict] at hvs
    cases hvs
  obtain ⟨d, h1, h2, h3, _⟩ :=
    insertAll_spec (rs.map (fun r => (r, r.classification_list)))
      ([] : Dict RxnSim) hne2 hpw2 hfresh
  refine ⟨d, h1, ?_, ?_⟩
  · rw [h2]
    simp [dictCount]
  · intro r hr
    exact h3 (r, r.classification_list) (List.mem_map.mpr ⟨r, hr, rfl⟩)

/-- Witness for the amended C4 at the concrete two-reaction fixture. -/
theorem insert_reactions_distinct_paths_witness :
    ∃ d, insert_reactions [crW1, crW2] ([] : Dict RxnSim) = some d ∧
      dictCount d = 2 ∧
      ∀ r ∈ [crW1, crW2], findLeafPath d r.classification_list = some [r] := by
  have hne : ∀ r ∈ [crW1, crW2], r.classification_list ≠ [] := by
    intro r hr
    rcases List.mem_cons.mp hr with h1 | h2
    · subst h1; simp [crW1]
    · have h3 : r = crW2 := by simpa using h2
      subst h3; simp [crW2]
  have hpw : List.Pairwise (fun a b =>
      ¬ isPre a.classification_list b.classification_list ∧
      ¬ isPre b.classification_list a.classification_list) [crW1, crW2] := by
    refine List.pairwise_cons.mpr ⟨?_, List.pairwise_singleton _ _⟩
    intro b hb
    have hb2 : b = crW2 := by simpa using hb
    subst hb2
    constructor
    · rintro ⟨t, ht⟩
      simp [crW1, crW2] at ht
    · rintro ⟨t, ht⟩
      simp [crW1, crW2] at ht
  exact insert_reactions_distinct_paths [crW1, crW2] hne hpw

/-- C10: `add_value_to_nested_dict` does not succeed on all inputs: on an
empty key list it always fails, and on a tree reached by a sequence of
successful inserts it succeeds exactly when the key path is non-empty and
neither strictly extends nor is strictly extended by any previously
inserted path; on failure it returns an error instead of overwriting. -/
theorem add_value_to_nested_dict_failure_modes {α : Type} (v : α)
    (ps : List (α × List String)) (d : Dict α)
    (hreach : insertAll ps ([] : Dict α) = some d)
    (keys : List String) :
    add_value_to_nested_dict v [] d = none ∧
    ((∃ d2, add_value_to_nested_dict v keys d = some d2) ↔
      (keys ≠ [] ∧ ∀ pr ∈ ps, ¬ strictPre pr.2 keys ∧ ¬ strictPre keys pr.2)) := by
  refine ⟨rfl, ?_⟩
  rw [add_isSome_iff]
  constructor
  · rintro ⟨hk, hleaf, hnode⟩
    refine ⟨hk, ?_⟩
    intro pr hpr
    constructor
    · intro hsp
      have hprne : pr.2 ≠ [] := insertAll_paths_ne ps ([] : Dict α) d hreach pr hpr
      have hchar := (insertAll_chars ps ([] : Dict α) d hreach pr.2 hprne).1
      have hlf : isLeafAt d pr.2 := hchar.mpr (Or.inr ⟨pr, hpr, rfl⟩)
      exact hleaf pr.2 hprne hsp hlf
    · intro hsp
      have hchar := (insertAll_chars ps ([] : Dict α) d hreach keys hk).2
      exact hnode (hchar.mpr (Or.inr ⟨pr, hpr, hsp⟩))
  · rintro ⟨hk, hfree⟩
    refine ⟨hk, ?_, ?_⟩
    · intro q hq hsp hlf
      have hchar := (insertAll_chars ps ([] : Dict α) d hreach q hq).1
      rcases hchar.mp hlf with h0 | ⟨pr, hpr, hpq⟩
      · obtain ⟨vs, hvs⟩ := h0
        rw [storedAt_empty_dict] at hvs
        cases hvs
      · exact (hfree pr hpr).1 (by rw [hpq]; exact hsp)
    · intro hnd
      have hchar := (insertAll_chars ps ([] : Dict α) d hreach keys hk).2
      rcases hchar.mp hnd with h0 | ⟨pr, hpr, hsp⟩
      · obtain ⟨sub, hsub⟩ := h0
        rw [storedAt_empty_dict] at hsub
        cases hsub
      · exact (hfree pr hpr).2 hsp

/-- Witness for C10: in the tree built by inserting value 0 at path
["a", "b"], inserting at the empty path fails, and inserting at ["a"] (a
strict path prefix of an existing path) is characterized as failing. -/
theorem add_value_to_nested_dict_failure_modes_witness :
    add_value_to_nested_dict (1 : Nat) []
        [("a", NTree.node [("b", NTree.leaf [0])])] = none ∧
    ((∃ d2, add_value_to_nested_dict (1 : Nat) ["a"]
        [("a", NTree.node [("b", NTree.leaf [0])])] = some d2) ↔
      ((["a"] : List String) ≠ [] ∧ ∀ pr ∈ [((0 : Nat), ["a", "b"])],
        ¬ strictPre pr.2 ["a"] ∧ ¬ strictPre ["a"] pr.2)) :=
  add_value_to_nested_dict_failure_modes 1 [((0 : Nat), ["a", "b"])] _ rfl ["a"]
